import Mathlib

/-!
A shallow embedding of src/datasketch/weighted_minhash.py and a verification
of its specification.

Modeling conventions:
* float32 values are modeled as exact rationals (every finite IEEE float is
  a rational) and all arithmetic is evaluated exactly; IEEE NaN is modeled
  as `none : Option ℚ`.  The scalar and the batch path build DIFFERENT
  float32 expressions for ln_a (lines 137-138 versus lines 196-197); this
  embedding compares them under exact arithmetic, where they agree by an
  algebraic identity — bit-level float32 rounding of the two expression
  trees is outside the model and no theorem here claims it agrees.
* np.log is abstracted by a parameter lg : ℚ → ℚ, applied to positive
  arguments only; np.log of a negative argument is NaN (`none`).  A zero
  argument never reaches the logarithm: the single-vector path substitutes
  zeros with NaN first, and the batch path takes logs of X.nonzero() values
  only.
* numpy arrays are lists, python exceptions are Except.error.
* np.nanargmin returns the first index achieving the minimum over the
  non-NaN entries (ValueError when all entries are NaN); np.argmin returns
  the index of the first NaN if any is present, otherwise the first index
  achieving the minimum, and raises ValueError on an empty input.
* scipy csr matrices keep their stored structure (explicit zeros included)
  through the copying conversion at line 171; X.nonzero() filters explicit
  zeros while X.indptr counts stored entries, and the embedding reproduces
  the row-slice misalignment this causes.
-/

deriving instance DecidableEq for Except

namespace Datasketch

/-- Exceptions raised by weighted_minhash.py, by site.  `seedMismatch` and
`lengthMismatch` are the two ValueErrors of WeightedMinHash.jaccard
(lines 39-44); `zeroDivision` is the ZeroDivisionError of
float(intersection)/float(len(self)) at line 50 when the sketches are empty;
`dimMismatch` / `allZero` / `allNan` come from minhash (lines 124, 132 and
np.nanargmin on an all-NaN slice at line 139); `nanToInt` is the ValueError
numpy raises when assigning a NaN into an int array (line 140 / line 214);
`emptyVstack` is the ValueError of np.vstack([] * 0) at line 192 when
sample_size = 0; `emptyArgmin` is the ValueError np.argmin raises on an
empty slice at line 208 (reachable: stored explicit zeros make the
indptr-based doc_begin overshoot the true-nonzero arrays);
`negativeDimension` is the ValueError numpy raises when a gamma draw is
requested with a negative shape in __init__. -/
inductive Err where
  | typeMismatch
  | dimMismatch
  | allZero
  | allNan
  | nanToInt
  | seedMismatch
  | lengthMismatch
  | zeroDivision
  | emptyVstack
  | emptyArgmin
  | negativeDimension
  deriving DecidableEq

/-- The sketch object (weighted_minhash.py lines 11-25): a seed and the
hashvalues, an ordered list of (k, t) pairs (the (sample_size, 2) int
array). -/
structure WeightedMinHash where
  seed : ℤ
  hashvalues : List (ℕ × ℤ)
  deriving DecidableEq

/-- WeightedMinHash.jaccard (lines 27-50): raises on a seed mismatch, then on
a length mismatch; otherwise counts positions whose (k, t) rows are equal
(np.array_equal) and divides by len(self).  float(0)/float(0) raises
ZeroDivisionError in Python, hence the zero-length branch. -/
def jaccard (a b : WeightedMinHash) : Except Err ℚ :=
  if a.seed ≠ b.seed then .error .seedMismatch
  else if a.hashvalues.length ≠ b.hashvalues.length then .error .lengthMismatch
  else if a.hashvalues.length = 0 then .error .zeroDivision
  else .ok ((((a.hashvalues.zip b.hashvalues).countP fun p => decide (p.1 = p.2)) : ℚ) /
    (a.hashvalues.length : ℚ))

/-- The generator (lines 87-110): dimensions, sample count, seed and the three
parameter matrices, indexed (sample index, dimension index). -/
structure Generator where
  dim : ℕ
  sample_size : ℕ
  seed : ℤ
  rs : ℕ → ℕ → ℚ
  ln_cs : ℕ → ℕ → ℚ
  betas : ℕ → ℕ → ℚ

/-- Modelled from the spec: numpy's RandomState(seed) is a deterministic
pseudo-random stream fixed by the seed (the library code is outside src/).
Only determinism in the seed matters for the claims, not the distribution;
the values are positive rationals below 1. -/
def prng (seed : ℤ) (i : ℕ) : ℚ :=
  ((seed.natAbs + i + 1 : ℕ) : ℚ) / ((seed.natAbs + i + 2 : ℕ) : ℚ)

/-- __init__ (lines 103-110): the three matrices are drawn from the single
seeded stream in the fixed order rs, then ln_cs, then betas (modeled by
disjoint, ordered index ranges of the stream); ln_cs is the log of the
second block of draws. -/
def mkGenerator (lg : ℚ → ℚ) (dim sample_size : ℕ) (seed : ℤ) : Generator :=
  { dim := dim
    sample_size := sample_size
    seed := seed
    rs := fun i j => prng seed (i * dim + j)
    ln_cs := fun i j => lg (prng seed (sample_size * dim + i * dim + j))
    betas := fun i j => prng seed (2 * (sample_size * dim) + i * dim + j) }

/-- __init__ with Python integer arguments.  The code performs no validation
of dim or sample_size (lines 103-110): the only failure is numpy's
ValueError when a gamma matrix of negative shape is requested; shape-zero
matrices are built without error. -/
def generatorInit (lg : ℚ → ℚ) (dim sample_size seed : ℤ) : Except Err Generator :=
  if dim < 0 ∨ sample_size < 0 then .error .negativeDimension
  else .ok (mkGenerator lg dim.toNat sample_size.toNat seed)

/-- np.log on a model float: NaN stays NaN, a negative argument gives NaN.
Zero arguments never reach this function in the embedded code paths (zeros
are substituted with NaN before the log in minhash, and a csr matrix built
from a dense matrix stores only nonzero entries in minhash_many). -/
def logF (lg : ℚ → ℚ) : Option ℚ → Option ℚ
  | none => none
  | some q => if q ≤ 0 then none else some (lg q)

/-- t = np.floor(vlog / rs[i] + betas[i]) at one position (line 136 and
line 195: the same formula in both code paths); NaN propagates. -/
def tAt (g : Generator) (i j : ℕ) (x : Option ℚ) : Option ℤ :=
  x.map fun q => ⌊q / g.rs i j + g.betas i j⌋

/-- ln_y = (t - betas[i]) * rs[i] at one position (line 137, the
single-vector path). -/
def lnyAt (g : Generator) (i j : ℕ) (t : Option ℤ) : Option ℚ :=
  t.map fun (tv : ℤ) => ((tv : ℚ) - g.betas i j) * g.rs i j

/-- ln_a = ln_cs[i] - ln_y - rs[i] at one position (line 138, the
single-vector path). -/
def lnaAt (g : Generator) (i j : ℕ) (y : Option ℚ) : Option ℚ :=
  y.map fun q => g.ln_cs i j - q - g.rs i j

/-- ln_y = (t - betas + 1) * rs at one position (line 196, the batch path).
This is a different float32 expression from the scalar path's lines
137-138 ((t - betas) * rs, then a further subtraction of rs in ln_a); the
two agree under this embedding's exact rational arithmetic only, by the
identity c - ((t - b + 1) * r) = c - (t - b) * r - r. -/
def lnyManyAt (g : Generator) (i j : ℕ) (t : Option ℤ) : Option ℚ :=
  t.map fun (tv : ℤ) => ((tv : ℚ) - g.betas i j + 1) * g.rs i j

/-- ln_a = ln_cs - ln_y at one position (line 197, the batch path). -/
def lnaManyAt (g : Generator) (i j : ℕ) (y : Option ℚ) : Option ℚ :=
  y.map fun q => g.ln_cs i j - q

/-- The quantized level t of one positive weight q at sample i, dimension j:
floor(log q / rs[i][j] + betas[i][j]). -/
def tQ (g : Generator) (lg : ℚ → ℚ) (i j : ℕ) (q : ℚ) : ℤ :=
  ⌊lg q / g.rs i j + g.betas i j⌋

/-- The single-vector path's ln_a value of one positive weight q at sample i,
dimension j (lines 136-138 composed). -/
def aS (g : Generator) (lg : ℚ → ℚ) (i j : ℕ) (q : ℚ) : ℚ :=
  g.ln_cs i j - ((tQ g lg i j q : ℚ) - g.betas i j) * g.rs i j - g.rs i j

/-- Left-to-right scan returning the (index, value) pair of the first
occurrence of the minimum among the non-NaN entries of a float list, the
index counter starting at n; none when no non-NaN entry exists. -/
def selMinIdx (n : ℕ) : List (Option ℚ) → Option (ℕ × ℚ)
  | [] => none
  | none :: rest => selMinIdx (n + 1) rest
  | some q :: rest =>
    match selMinIdx (n + 1) rest with
    | none => some (n, q)
    | some b => if b.2 < q then some b else some (n, q)

/-- First occurrence of the minimum of a list of (key, value) pairs, by
value. -/
def selMinP : List (ℕ × ℚ) → Option (ℕ × ℚ)
  | [] => none
  | x :: rest =>
    match selMinP rest with
    | none => some x
    | some b => if b.2 < x.2 then some b else some x

/-- Index of the first NaN of a float list, the counter starting at n. -/
def firstNone (n : ℕ) : List (Option ℚ) → Option ℕ
  | [] => none
  | none :: _ => some n
  | some _ :: rest => firstNone (n + 1) rest

/-- np.nanargmin (line 139): first index of the minimum over the non-NaN
entries; none models the ValueError on an all-NaN input. -/
def npNanargmin (l : List (Option ℚ)) : Option ℕ :=
  (selMinIdx 0 l).map Prod.fst

/-- np.argmin (line 208): with a NaN present it returns the index of the
first NaN, otherwise the first index of the minimum; none models the
ValueError on an empty input. -/
def npArgmin (l : List (Option ℚ)) : Option ℕ :=
  match firstNone 0 l with
  | some i => some i
  | none => (selMinIdx 0 l).map Prod.fst

/-- Line 133, v[vzeros] = np.nan: every zero entry of the float buffer is
replaced by NaN, in place. -/
def substituteZeros (v : List (Option ℚ)) : List (Option ℚ) :=
  v.map fun x => if x = some 0 then none else x

/-- The caller's float32 buffer after the in-place zero substitution. -/
def substVec (v : List ℚ) : List (Option ℚ) :=
  substituteZeros (v.map some)

/-- vlog = np.log(v) (line 134) on the substituted buffer. -/
def vlogOf (lg : ℚ → ℚ) (v : List ℚ) : List (Option ℚ) :=
  (substVec v).map (logF lg)

/-- A Python for-loop collecting one result per element and aborting at the
first exception. -/
def exceptMap {α β : Type} (f : α → Except Err β) : List α → Except Err (List β)
  | [] => .ok []
  | a :: l =>
    match f a with
    | .error e => .error e
    | .ok b =>
      match exceptMap f l with
      | .error e => .error e
      | .ok bs => .ok (b :: bs)

/-- One iteration of the sample loop of minhash (lines 135-140): t and ln_a
over all dim positions, k = np.nanargmin(ln_a) (ValueError when the slice is
all NaN), then the pair (k, int(t[k])) (int(NaN) would raise; it is
unreachable because t is non-NaN wherever ln_a is). -/
def singleSample (g : Generator) (vlog : List (Option ℚ)) (i : ℕ) :
    Except Err (ℕ × ℤ) :=
  let tRow := (List.range g.dim).map fun j => tAt g i j (vlog.getD j none)
  let lnaRow := (List.range g.dim).map fun j =>
    lnaAt g i j (lnyAt g i j (tRow.getD j none))
  match npNanargmin lnaRow with
  | none => .error .allNan
  | some k =>
    match tRow.getD k none with
    | some tk => Except.ok (k, tk)
    | none => .error .nanToInt

/-- minhash (lines 112-141) on a float32 ndarray input, which lines 125-128
leave aliased to the caller's array (no copy is taken).  Returns the result
together with the caller-visible contents of the input buffer after the
call: the length and all-zero checks precede the in-place NaN substitution
of line 133, which the caller observes. -/
def minhashInPlace (g : Generator) (lg : ℚ → ℚ) (v : List ℚ) :
    Except Err WeightedMinHash × List (Option ℚ) :=
  if v.length ≠ g.dim then (.error .dimMismatch, v.map some)
  else if v.all fun q => decide (q = 0) then (.error .allZero, v.map some)
  else
    ((exceptMap (singleSample g (vlogOf lg v)) (List.range g.sample_size)).map
      (WeightedMinHash.mk g.seed), substVec v)

/-- minhash's returned value (the first component of the call; for a
non-float32 input the entry conversion copies and the same value is
computed on the copy). -/
def minhash (g : Generator) (lg : ℚ → ℚ) (v : List ℚ) : Except Err WeightedMinHash :=
  (minhashInPlace g lg v).1

/-- The sorted column indices of the nonzero entries of one row: what
csr_matrix construction from a dense row stores, after sort_indices
(lines 171-172 and 179). -/
def nzCols (d : ℕ) (row : List ℚ) : List ℕ :=
  (List.range d).filter fun j => decide (row.getD j 0 ≠ 0)

/-- One sample of one document of minhash_many (lines 195-197 and 205-215)
in the ALIGNED case, where the row's stored entries are exactly its true
nonzeros (always so for a dense input, whose csr conversion stores no
zeros): t and ln_a over the row's nonzero columns, p = np.argmin of the
slice, k = doc_cidx[p], and t at the selected occurrence; assigning a NaN
t into the int hashvalues array raises (line 214).  The general stored-row
loop below (rowHash/docLoop) is proved to reduce to this on aligned
inputs. -/
def manySample (g : Generator) (lg : ℚ → ℚ) (row : List ℚ) (cols : List ℕ)
    (i : ℕ) : Except Err (ℕ × ℤ) :=
  let tRow := cols.map fun j => tAt g i j (logF lg (some (row.getD j 0)))
  let lnaRow := cols.map fun j =>
    lnaManyAt g i j (lnyManyAt g i j (tAt g i j (logF lg (some (row.getD j 0)))))
  match npArgmin lnaRow with
  | none => .error .emptyArgmin
  | some p =>
    match tRow.getD p none with
    | some tk => Except.ok (cols.getD p 0, tk)
    | none => .error .nanToInt

/-- One document of minhash_many (lines 201-217) in the aligned case (see
manySample): a row with no stored entries keeps its None slot; otherwise
the sample loop fills the (sample_size, 2) hashvalues array. -/
def rowSketch (g : Generator) (lg : ℚ → ℚ) (row : List ℚ) :
    Except Err (Option (List (ℕ × ℤ))) :=
  let cols := nzCols g.dim row
  if cols.isEmpty then .ok none
  else (exceptMap (manySample g lg row cols) (List.range g.sample_size)).map some

/-- The csr matrix minhash_many works on after line 171's
csr_matrix(X, dtype=np.float32, copy=True) and line 172's sort_indices: a
declared column count and, per row, the stored (column, value) entries in
increasing column order.  A stored value may be an explicit zero: the
copying conversion preserves the stored structure of an already-sparse
input (only eliminate_zeros would drop such entries), while conversion from
a dense array stores exactly the nonzero entries. -/
structure Csr where
  ncols : ℕ
  rows : List (List (ℕ × ℚ))

/-- The csr row a dense row converts to at line 171: exactly its nonzero
entries, in column order. -/
def csrRowOfDense (d : ℕ) (row : List ℚ) : List (ℕ × ℚ) :=
  (List.range d).filterMap fun j =>
    if row.getD j 0 = 0 then none else some (j, row.getD j 0)

/-- ridx, cidx = X.nonzero() (line 179): scipy returns only the stored
entries whose value is truly nonzero, row-major (explicitly stored zeros
are filtered out here, although X.indptr at lines 180-182 keeps counting
them).  The value at each occurrence is what X[ridx, cidx] (line 191)
reads. -/
def trueNonzeros (rows : List (List (ℕ × ℚ))) : List (ℕ × ℚ) :=
  rows.flatten.filter fun e => decide (e.2 ≠ 0)

/-- t for one nonzero occurrence (lines 191-195): the log of the stored
value (NaN for a negative value), divided by rs at the occurrence's
column, plus betas, floored. -/
def manyEntryT (g : Generator) (lg : ℚ → ℚ) (i : ℕ) (e : ℕ × ℚ) : Option ℤ :=
  tAt g i e.1 (logF lg (some e.2))

/-- ln_a for one nonzero occurrence (lines 196-197 composed). -/
def manyEntryLnA (g : Generator) (lg : ℚ → ℚ) (i : ℕ) (e : ℕ × ℚ) : Option ℚ :=
  lnaManyAt g i e.1 (lnyManyAt g i e.1 (tAt g i e.1 (logF lg (some e.2))))

/-- One document's hashvalues block (lines 205-215).  doc_begin and doc_end
are X.indptr offsets, i.e. stored-entry counts, but they slice cidx, ln_a
and t, which are indexed by true nonzeros only: when explicit zeros are
stored, every slice after them drifts into later rows' entries.  numpy
slicing truncates at the array length; np.argmin raises ValueError on an
empty slice (line 208); assigning a NaN t into the int hashvalues array
raises (line 214). -/
def rowHash (g : Generator) (lg : ℚ → ℚ) (nz : List (ℕ × ℚ)) (b e : ℕ) :
    Except Err (List (ℕ × ℤ)) :=
  let slice := (nz.drop b).take (e - b)
  exceptMap (fun i =>
    match npArgmin (slice.map (manyEntryLnA g lg i)) with
    | none => .error .emptyArgmin
    | some p =>
      match (nz.map (manyEntryT g lg i)).getD (b + p) none with
      | some tk => Except.ok ((slice.map Prod.fst).getD p 0, tk)
      | none => .error .nanToInt) (List.range g.sample_size)

/-- The document loop (lines 201-217): doc_begin/doc_end advance by the
STORED length of each row (X.indptr with the leading 0 dropped; the
appended X.nnz duplicate is never read), and a row with no stored entries
keeps its None slot. -/
def docLoop (g : Generator) (lg : ℚ → ℚ) (nz : List (ℕ × ℚ)) :
    ℕ → List (List (ℕ × ℚ)) → Except Err (List (Option (List (ℕ × ℤ))))
  | _, [] => .ok []
  | b, row :: rest =>
    if row.length = 0 then
      (docLoop g lg nz (b + row.length) rest).map fun l => none :: l
    else
      match rowHash g lg nz b (b + row.length) with
      | .error err => .error err
      | .ok hv => (docLoop g lg nz (b + row.length) rest).map fun l => some hv :: l

/-- minhash_many after input validation, on the converted csr rows
(lines 170-225): np.vstack([log_data] * sample_size) at line 192 raises
when sample_size = 0 (an empty list of arrays cannot be stacked), then the
document loop runs, and the hashvalues blocks are wrapped as
WeightedMinHash values with the generator's seed (lines 220-223). -/
def minhash_manyCore (g : Generator) (lg : ℚ → ℚ) (rows : List (List (ℕ × ℚ))) :
    Except Err (List (Option WeightedMinHash)) :=
  if g.sample_size = 0 then .error .emptyVstack
  else (docLoop g lg (trueNonzeros rows) 0 rows).map fun bs =>
    bs.map (Option.map (WeightedMinHash.mk g.seed))

/-- minhash_many (lines 143-225) on an already-sparse input: the
column-count check of line 167 reads the declared shape, and line 171's
copying conversion preserves the stored entries, explicit zeros
included. -/
def minhash_manySparse (g : Generator) (lg : ℚ → ℚ) (X : Csr) :
    Except Err (List (Option WeightedMinHash)) :=
  if X.ncols ≠ g.dim then .error .dimMismatch
  else minhash_manyCore g lg X.rows

/-- minhash_many (lines 143-225) on a dense input: the shape check
(line 167), then line 171's conversion, which stores exactly the nonzero
entries of each row (a dense input can carry no explicit zeros into the
csr form). -/
def minhash_many (g : Generator) (lg : ℚ → ℚ) (X : List (List ℚ)) :
    Except Err (List (Option WeightedMinHash)) :=
  if ¬ X.all (fun row => decide (row.length = g.dim)) then .error .dimMismatch
  else minhash_manyCore g lg (X.map (csrRowOfDense g.dim))

/-- The dense matrix entry a stored csr row represents at column j (0 when
no entry is stored there). -/
def csrRowVal (row : List (ℕ × ℚ)) (j : ℕ) : ℚ :=
  match row.find? (fun e => decide (e.1 = j)) with
  | some e => e.2
  | none => 0

/-- minhash_many as the caller observes it: line 171 rebinds the local X to
csr_matrix(X, dtype=np.float32, copy=True), an explicit copy, and every
later mutation (sort_indices, the temporaries) happens on that copy, so the
caller's matrix is returned unchanged alongside the result. -/
def minhash_many_call (g : Generator) (lg : ℚ → ℚ) (X : List (List ℚ)) :
    Except Err (List (Option WeightedMinHash)) × List (List ℚ) :=
  (minhash_many g lg X, X)

/-- A store of numpy int arrays addressed by object identity, for the
aliasing claims about digest and copy: mem maps an array id to its
contents; ids below next are allocated. -/
structure Store where
  mem : ℕ → List (ℕ × ℤ)
  next : ℕ

/-- Reading an array object. -/
def Store.read (st : Store) (r : ℕ) : List (ℕ × ℤ) :=
  st.mem r

/-- Allocating a fresh array object with the given contents. -/
def Store.alloc (st : Store) (xs : List (ℕ × ℤ)) : ℕ × Store :=
  (st.next, ⟨fun r => if r = st.next then xs else st.mem r, st.next + 1⟩)

/-- In-place update of one row of an array object (what a caller mutating a
returned array does). -/
def Store.write (st : Store) (r i : ℕ) (x : ℕ × ℤ) : Store :=
  ⟨fun s => if s = r then (st.mem r).set i x else st.mem s, st.next⟩

/-- A sketch whose hashvalues field is a reference to a store array. -/
structure SketchRef where
  seed : ℤ
  hv : ℕ

/-- WeightedMinHash.digest (lines 52-59): copy.copy(self.hashvalues)
allocates a fresh array with the same contents and returns it. -/
def digestS (st : Store) (s : SketchRef) : ℕ × Store :=
  st.alloc (st.read s.hv)

/-- WeightedMinHash.copy (lines 61-67): a new sketch carrying the same seed
and the array returned by digest. -/
def copyS (st : Store) (s : SketchRef) : SketchRef × Store :=
  ((⟨s.seed, (digestS st s).1⟩ : SketchRef), (digestS st s).2)

/-- A sketch reference is well formed in a store when its array is
allocated. -/
def SketchRef.wf (s : SketchRef) (st : Store) : Prop :=
  s.hv < st.next

/-- A concrete stand-in for np.log used in closed witnesses (the claims hold
for every lg). -/
def lgEx : ℚ → ℚ := fun q => q - 1

/-- A concrete generator: dim 2, one sample. -/
def gEx : Generator :=
  ⟨2, 1, 7, fun _ _ => 1, fun _ _ => 0, fun _ _ => (1 : ℚ) / 2⟩

/-- A concrete generator with a single dimension and a single sample. -/
def gEx1 : Generator :=
  ⟨1, 1, 9, fun _ _ => 1, fun _ _ => 0, fun _ _ => (1 : ℚ) / 2⟩

/-- A concrete generator with sample_size 0, constructible because __init__
validates nothing. -/
def gZ : Generator :=
  ⟨1, 0, 1, fun _ _ => 1, fun _ _ => 0, fun _ _ => (1 : ℚ) / 2⟩

/-- A concrete store holding one allocated array. -/
def stEx : Store :=
  ⟨fun r => if r = 0 then [(0, 2)] else [], 1⟩

/-- A concrete sketch reference into stEx. -/
def sEx : SketchRef := ⟨5, 0⟩

/-! Helper lemmas about lists. -/

theorem getD_map_of_lt {α β : Type} (f : α → β) (l : List α) (n : ℕ) (da : α)
    (db : β) (h : n < l.length) : (l.map f).getD n db = f (l.getD n da) := by
  induction l generalizing n with
  | nil => simp at h
  | cons a t ih =>
    cases n with
    | zero => rfl
    | succ m => simpa using ih m (by simpa using h)

theorem getD_mem_of_lt {α : Type} (l : List α) (n : ℕ) (d : α)
    (h : n < l.length) : l.getD n d ∈ l := by
  induction l generalizing n with
  | nil => simp at h
  | cons a t ih =>
    cases n with
    | zero => simp
    | succ m => exact List.mem_cons_of_mem a (ih m (by simpa using h))

theorem getD_of_length_le {α : Type} (l : List α) (n : ℕ) (d : α)
    (h : l.length ≤ n) : l.getD n d = d := by
  induction l generalizing n with
  | nil => cases n <;> rfl
  | cons a t ih =>
    cases n with
    | zero => simp at h
    | succ m => simpa using ih m (by simpa using h)

theorem map_congr_mem {α β : Type} : ∀ (l : List α) (f h : α → β),
    (∀ a ∈ l, f a = h a) → l.map f = l.map h := by
  intro l
  induction l with
  | nil => intro f h _; rfl
  | cons a t ih =>
    intro f h H
    simp only [List.map_cons, H a (by simp),
      ih f h fun x hx => H x (List.mem_cons_of_mem a hx)]

theorem range'_getD (d : ℕ) : ∀ (s n : ℕ), n < d →
    (List.range' s d).getD n 0 = s + n := by
  induction d with
  | zero => intro s n h; simp at h
  | succ d ih =>
    intro s n h
    rw [List.range'_succ]
    cases n with
    | zero => simp
    | succ m =>
      rw [List.getD_cons_succ, ih (s + 1) m (by omega)]
      omega

theorem range_getD (d n : ℕ) (h : n < d) : (List.range d).getD n 0 = n := by
  rw [List.range_eq_range']
  simpa using range'_getD d 0 n h

/-! Helper lemmas about the argmin scans. -/

theorem selMinIdx_bounds (l : List (Option ℚ)) : ∀ (n : ℕ) (pq : ℕ × ℚ),
    selMinIdx n l = some pq → n ≤ pq.1 ∧ pq.1 - n < l.length := by
  induction l with
  | nil => intro n pq h; simp [selMinIdx] at h
  | cons x t ih =>
    intro n pq h
    cases x with
    | none =>
      obtain ⟨h1, h2⟩ := ih (n + 1) pq h
      refine ⟨by omega, ?_⟩
      simp only [List.length_cons]
      omega
    | some q =>
      rcases hrec : selMinIdx (n + 1) t with _ | b
      · simp only [selMinIdx, hrec, Option.some_inj] at h
        rw [← h]
        refine ⟨Nat.le_refl n, ?_⟩
        simp
      · obtain ⟨h1, h2⟩ := ih (n + 1) b hrec
        simp only [selMinIdx, hrec] at h
        by_cases hlt : b.2 < q
        · rw [if_pos hlt, Option.some_inj] at h
          rw [← h]
          refine ⟨by omega, ?_⟩
          simp only [List.length_cons]
          omega
        · rw [if_neg hlt, Option.some_inj] at h
          rw [← h]
          refine ⟨Nat.le_refl n, ?_⟩
          simp

theorem selMinP_mem : ∀ (l : List (ℕ × ℚ)) (x : ℕ × ℚ),
    selMinP l = some x → x ∈ l := by
  intro l
  induction l with
  | nil => intro x h; simp [selMinP] at h
  | cons a t ih =>
    intro x h
    rcases hrec : selMinP t with _ | b
    · simp only [selMinP, hrec, Option.some_inj] at h
      rw [← h]
      simp
    · simp only [selMinP, hrec] at h
      by_cases hlt : b.2 < a.2
      · rw [if_pos hlt, Option.some_inj] at h
        rw [← h]
        exact List.mem_cons_of_mem a (ih b hrec)
      · rw [if_neg hlt, Option.some_inj] at h
        rw [← h]
        simp

theorem selMinP_eq_none : ∀ (l : List (ℕ × ℚ)), selMinP l = none ↔ l = [] := by
  intro l
  cases l with
  | nil => simp [selMinP]
  | cons a t =>
    rcases hrec : selMinP t with _ | b
    · simp [selMinP, hrec]
    · by_cases hlt : b.2 < a.2 <;> simp [selMinP, hrec, hlt]

theorem firstNone_map_some (a : ℕ → ℚ) : ∀ (cols : List ℕ) (n : ℕ),
    firstNone n (cols.map fun j => some (a j)) = none := by
  intro cols
  induction cols with
  | nil => intro n; rfl
  | cons c t ih => intro n; simpa [firstNone] using ih (n + 1)

theorem selMinIdx_map_some (a : ℕ → ℚ) : ∀ (cols : List ℕ) (n : ℕ),
    (selMinIdx n (cols.map fun j => some (a j))).map
        (fun pq => ((cols.getD (pq.1 - n) 0 : ℕ), pq.2))
      = selMinP (cols.map fun j => (j, a j)) := by
  intro cols
  induction cols with
  | nil => intro n; rfl
  | cons c t ih =>
    intro n
    rcases hrec : selMinIdx (n + 1) (t.map fun j => some (a j)) with _ | bp
    · have htail : selMinP (t.map fun j => (j, a j)) = none := by
        rw [← ih (n + 1), hrec]
        rfl
      simp only [List.map_cons, selMinIdx, selMinP, hrec, htail]
      simp [Nat.sub_self]
    · obtain ⟨hge, _⟩ := selMinIdx_bounds _ (n + 1) bp hrec
      have htail : selMinP (t.map fun j => (j, a j))
          = some (t.getD (bp.1 - (n + 1)) 0, bp.2) := by
        rw [← ih (n + 1), hrec]
        rfl
      have hgd : ((c :: t)[bp.1 - n]?).getD 0 = (t[bp.1 - (n + 1)]?).getD 0 := by
        have h1 : bp.1 - n = (bp.1 - (n + 1)) + 1 := by omega
        rw [h1]
        simp
      simp only [List.map_cons, selMinIdx, selMinP, hrec, htail]
      by_cases hlt : bp.2 < a c
      · simp [hlt, hgd]
      · simp [hlt, Nat.sub_self]

theorem selMinIdx_range' (f : ℕ → Option ℚ) : ∀ (d s : ℕ),
    selMinIdx s ((List.range' s d).map f)
      = selMinP ((List.range' s d).filterMap fun j => (f j).map fun q => (j, q)) := by
  intro d
  induction d with
  | zero => intro s; rfl
  | succ d ih =>
    intro s
    rw [List.range'_succ]
    rcases hf : f s with _ | q
    · simp only [List.map_cons, List.filterMap_cons, hf, selMinIdx]
      exact ih (s + 1)
    · simp only [List.map_cons, List.filterMap_cons, hf, Option.map_some, selMinIdx,
        selMinP]
      rw [ih (s + 1)]

theorem exceptMap_congr {α β : Type} (f h : α → Except Err β) :
    ∀ (l : List α), (∀ a ∈ l, f a = h a) → exceptMap f l = exceptMap h l := by
  intro l
  induction l with
  | nil => intro _; rfl
  | cons a t ih =>
    intro H
    have ha := H a (by simp)
    have ht := ih fun x hx => H x (List.mem_cons_of_mem a hx)
    simp only [exceptMap, ha, ht]

theorem exceptMap_ok_of_all {α β : Type} (f : α → Except Err β) (da : α) (db : β) :
    ∀ (l : List α), (∀ a ∈ l, ∃ b, f a = .ok b) →
      ∃ bs, exceptMap f l = .ok bs ∧ bs.length = l.length ∧
        ∀ n, n < l.length → f (l.getD n da) = .ok (bs.getD n db) := by
  intro l
  induction l with
  | nil => intro _; exact ⟨[], rfl, rfl, fun n hn => by simp at hn⟩
  | cons a t ih =>
    intro H
    obtain ⟨b, hb⟩ := H a (by simp)
    obtain ⟨bs, hbs, hlen, hidx⟩ := ih fun x hx => H x (List.mem_cons_of_mem a hx)
    refine ⟨b :: bs, ?_, by simp [hlen], ?_⟩
    · simp only [exceptMap, hb, hbs]
    · intro n hn
      cases n with
      | zero => simpa using hb
      | succ m => simpa using hidx m (by simpa using hn)

theorem exceptMap_ok_inv {α β : Type} (f : α → Except Err β) (da : α) (db : β) :
    ∀ (l : List α) (bs : List β), exceptMap f l = .ok bs →
      bs.length = l.length ∧
        ∀ n, n < l.length → f (l.getD n da) = .ok (bs.getD n db) := by
  intro l
  induction l with
  | nil =>
    intro bs h
    simp only [exceptMap, Except.ok.injEq] at h
    rw [← h]
    exact ⟨rfl, fun n hn => by simp at hn⟩
  | cons a t ih =>
    intro bs h
    rcases hfa : f a with e | b
    · rw [exceptMap, hfa] at h
      exact absurd h (by simp)
    · rcases hrec : exceptMap f t with e | cs
      · rw [exceptMap, hfa, hrec] at h
        exact absurd h (by simp)
      · rw [exceptMap, hfa, hrec] at h
        have hb : b :: cs = bs := by simpa using h
        obtain ⟨hlen, hidx⟩ := ih cs hrec
        rw [← hb]
        refine ⟨by simp [hlen], ?_⟩
        intro n hn
        cases n with
        | zero => simpa using hfa
        | succ m => simpa using hidx m (by simpa using hn)

theorem exceptMap_mem_inv {α β : Type} (f : α → Except Err β) :
    ∀ (l : List α) (bs : List β), exceptMap f l = .ok bs →
      ∀ b ∈ bs, ∃ a ∈ l, f a = .ok b := by
  intro l
  induction l with
  | nil =>
    intro bs h b hb
    simp only [exceptMap, Except.ok.injEq] at h
    rw [← h] at hb
    simp at hb
  | cons a t ih =>
    intro bs h b hb
    rcases hfa : f a with e | b0
    · rw [exceptMap, hfa] at h
      exact absurd h (by simp)
    · rcases hrec : exceptMap f t with e | cs
      · rw [exceptMap, hfa, hrec] at h
        exact absurd h (by simp)
      · rw [exceptMap, hfa, hrec] at h
        have hb0 : b0 :: cs = bs := by simpa using h
        rw [← hb0] at hb
        rcases List.mem_cons.mp hb with hb1 | hb1
        · exact ⟨a, by simp, by rw [hfa, hb1]⟩
        · obtain ⟨x, hx1, hx2⟩ := ih cs hrec b hb1
          exact ⟨x, List.mem_cons_of_mem a hx1, hx2⟩

/-! Characterization of the substituted log buffer of minhash. -/

theorem vlogOf_getD (lg : ℚ → ℚ) (v : List ℚ) (j : ℕ) (h : j < v.length) :
    (vlogOf lg v).getD j none
      = logF lg (if v.getD j 0 = 0 then none else some (v.getD j 0)) := by
  unfold vlogOf substVec substituteZeros
  rw [List.map_map, List.map_map]
  rw [getD_map_of_lt _ v j 0 none h]
  by_cases h0 : v.getD j 0 = 0 <;> simp [Function.comp, h0]

theorem logF_pos (lg : ℚ → ℚ) (q : ℚ) (h : 0 < q) :
    logF lg (some q) = some (lg q) := by
  simp [logF, not_le.mpr h]

theorem logF_eq_some_inv (lg : ℚ → ℚ) (x : Option ℚ) (y : ℚ)
    (h : logF lg x = some y) : ∃ q, x = some q ∧ 0 < q ∧ y = lg q := by
  cases x with
  | none => simp [logF] at h
  | some q =>
    by_cases hq : q ≤ 0
    · simp [logF, hq] at h
    · exact ⟨q, rfl, not_le.mp hq, by simpa [logF, hq] using h.symm⟩

theorem filterMap_eq_filter_map (f : ℕ → Option ℚ) (p : ℕ → Bool) (a : ℕ → ℚ) :
    ∀ (l : List ℕ), (∀ j ∈ l, f j = if p j = true then some (a j) else none) →
      (l.filterMap fun j => (f j).map fun q => (j, q))
        = (l.filter p).map fun j => (j, a j) := by
  intro l
  induction l with
  | nil => intro _; rfl
  | cons c t ih =>
    intro H
    have ht := ih fun j hj => H j (List.mem_cons_of_mem c hj)
    by_cases hp : p c = true
    · have hc : f c = some (a c) := by rw [H c (by simp), if_pos hp]
      simp [List.filterMap_cons, List.filter_cons, hc, hp, ht]
    · have hc : f c = none := by rw [H c (by simp), if_neg hp]
      simp [List.filterMap_cons, List.filter_cons, hc, hp, ht]

theorem nzCols_mem_inv (d : ℕ) (row : List ℚ) (j : ℕ) (hj : j ∈ nzCols d row) :
    j < d ∧ row.getD j 0 ≠ 0 := by
  unfold nzCols at hj
  obtain ⟨h1, h2⟩ := List.mem_filter.mp hj
  exact ⟨List.mem_range.mp h1, of_decide_eq_true h2⟩

theorem nzCols_mem (d : ℕ) (row : List ℚ) (j : ℕ) (h1 : j < d)
    (h2 : row.getD j 0 ≠ 0) : j ∈ nzCols d row := by
  unfold nzCols
  exact List.mem_filter.mpr ⟨List.mem_range.mpr h1, decide_eq_true h2⟩

theorem singleSample_eval (g : Generator) (vlog : List (Option ℚ)) (i k : ℕ) (tk : ℤ)
    (h1 : npNanargmin ((List.range g.dim).map fun j =>
        lnaAt g i j (lnyAt g i j
          (((List.range g.dim).map fun j2 => tAt g i j2 (vlog.getD j2 none)).getD j none)))
      = some k)
    (h2 : ((List.range g.dim).map fun j2 => tAt g i j2 (vlog.getD j2 none)).getD k none
      = some tk) :
    singleSample g vlog i = Except.ok (k, tk) := by
  simp only [singleSample, h1, h2]

theorem manySample_eval (g : Generator) (lg : ℚ → ℚ) (row : List ℚ) (cols : List ℕ)
    (i p : ℕ) (tk : ℤ)
    (h1 : npArgmin (cols.map fun j =>
        lnaManyAt g i j (lnyManyAt g i j (tAt g i j (logF lg (some (row.getD j 0))))))
      = some p)
    (h2 : (cols.map fun j => tAt g i j (logF lg (some (row.getD j 0)))).getD p none
      = some tk) :
    manySample g lg row cols i = Except.ok (cols.getD p 0, tk) := by
  simp only [manySample, h1, h2]

theorem sample_agree (g : Generator) (lg : ℚ → ℚ) (row : List ℚ) (i : ℕ)
    (hL : row.length = g.dim) (hNN : ∀ x ∈ row, 0 ≤ x)
    (hNZ : ∃ j, j < g.dim ∧ row.getD j 0 ≠ 0) :
    ∃ kt, singleSample g (vlogOf lg row) i = Except.ok kt ∧
      manySample g lg row (nzCols g.dim row) i = Except.ok kt := by
  have hposval : ∀ j, j < g.dim → row.getD j 0 ≠ 0 → 0 < row.getD j 0 := by
    intro j hj hne
    have hmem := getD_mem_of_lt row j 0 (by rw [hL]; exact hj)
    exact lt_of_le_of_ne (hNN _ hmem) (Ne.symm hne)
  have hvl : ∀ j, j < g.dim → (vlogOf lg row).getD j none
      = if row.getD j 0 = 0 then none else some (lg (row.getD j 0)) := by
    intro j hj
    rw [vlogOf_getD lg row j (by rw [hL]; exact hj)]
    by_cases h0 : row.getD j 0 = 0
    · rw [if_pos h0, if_pos h0]
      rfl
    · rw [if_neg h0, if_neg h0, logF_pos lg _ (hposval j hj h0)]
  have htS : ∀ j, j < g.dim →
      ((List.range g.dim).map fun j2 => tAt g i j2 ((vlogOf lg row).getD j2 none)).getD j none
        = if row.getD j 0 = 0 then none else some (tQ g lg i j (row.getD j 0)) := by
    intro j hj
    rw [getD_map_of_lt _ _ j 0 none (by rw [List.length_range]; exact hj),
      range_getD _ _ hj, hvl j hj]
    by_cases h0 : row.getD j 0 = 0
    · rw [if_pos h0, if_pos h0]
      rfl
    · rw [if_neg h0, if_neg h0]
      rfl
  have hlnaS : ((List.range g.dim).map fun j =>
        lnaAt g i j (lnyAt g i j
          (((List.range g.dim).map fun j2 => tAt g i j2 ((vlogOf lg row).getD j2 none)).getD j none)))
      = (List.range g.dim).map fun j =>
          if row.getD j 0 = 0 then none else some (aS g lg i j (row.getD j 0)) := by
    apply map_congr_mem
    intro j hj
    rw [htS j (List.mem_range.mp hj)]
    by_cases h0 : row.getD j 0 = 0
    · rw [if_pos h0, if_pos h0]
      rfl
    · rw [if_neg h0, if_neg h0]
      rfl
  have hP : ((List.range' 0 g.dim).filterMap fun j =>
        (if row.getD j 0 = 0 then none
          else some (aS g lg i j (row.getD j 0))).map fun q => (j, q))
      = (nzCols g.dim row).map fun j => (j, aS g lg i j (row.getD j 0)) := by
    rw [show nzCols g.dim row
        = (List.range' 0 g.dim).filter fun j => decide (row.getD j 0 ≠ 0) by
      rw [nzCols, List.range_eq_range']]
    apply filterMap_eq_filter_map
    intro j hj
    by_cases h0 : row.getD j 0 = 0
    · rw [if_pos h0, if_neg (by simp only [decide_eq_true_eq]; exact fun hc => hc h0)]
    · rw [if_neg h0, if_pos (decide_eq_true h0)]
  have hnan : npNanargmin ((List.range g.dim).map fun j =>
        if row.getD j 0 = 0 then none else some (aS g lg i j (row.getD j 0)))
      = (selMinP ((nzCols g.dim row).map fun j =>
          (j, aS g lg i j (row.getD j 0)))).map Prod.fst := by
    rw [npNanargmin, List.range_eq_range', selMinIdx_range', hP]
  have hlnaB : ((nzCols g.dim row).map fun j =>
        lnaManyAt g i j (lnyManyAt g i j (tAt g i j (logF lg (some (row.getD j 0))))))
      = (nzCols g.dim row).map fun j => some (aS g lg i j (row.getD j 0)) := by
    apply map_congr_mem
    intro j hj
    obtain ⟨hjd, hjnz⟩ := nzCols_mem_inv g.dim row j hj
    rw [logF_pos lg _ (hposval j hjd hjnz)]
    simp only [tAt, lnyManyAt, lnaManyAt, Option.map_some', Option.some_inj, aS, tQ]
    ring
  obtain ⟨j0, hj0d, hj0nz⟩ := hNZ
  have hj0c : j0 ∈ nzCols g.dim row := nzCols_mem g.dim row j0 hj0d hj0nz
  rcases hsel : selMinP ((nzCols g.dim row).map fun j =>
      (j, aS g lg i j (row.getD j 0))) with _ | kq
  · have hnil := (selMinP_eq_none _).mp hsel
    rw [List.map_eq_nil_iff] at hnil
    exact absurd hnil (List.ne_nil_of_mem hj0c)
  · obtain ⟨j1, hj1mem, hj1eq⟩ := List.mem_map.mp (selMinP_mem _ _ hsel)
    obtain ⟨hj1d, hj1nz⟩ := nzCols_mem_inv g.dim row j1 hj1mem
    refine ⟨(j1, tQ g lg i j1 (row.getD j1 0)), ?_, ?_⟩
    · have h1 : npNanargmin ((List.range g.dim).map fun j =>
          lnaAt g i j (lnyAt g i j
            (((List.range g.dim).map fun j2 =>
              tAt g i j2 ((vlogOf lg row).getD j2 none)).getD j none))) = some j1 := by
        rw [hlnaS, hnan, hsel, ← hj1eq]
        rfl
      have h2 : ((List.range g.dim).map fun j2 =>
          tAt g i j2 ((vlogOf lg row).getD j2 none)).getD j1 none
            = some (tQ g lg i j1 (row.getD j1 0)) := by
        rw [htS j1 hj1d, if_neg hj1nz]
      exact singleSample_eval g (vlogOf lg row) i j1 _ h1 h2
    · have hQ := selMinIdx_map_some (fun j => aS g lg i j (row.getD j 0))
        (nzCols g.dim row) 0
      rw [hsel, ← hj1eq] at hQ
      obtain ⟨pq, hpq1, hpq2⟩ := Option.map_eq_some'.mp hQ
      have hplen : pq.1 < (nzCols g.dim row).length := by
        have hb := (selMinIdx_bounds _ 0 pq hpq1).2
        simpa using hb
      have hk : (nzCols g.dim row).getD pq.1 0 = j1 := by
        have hfst := congrArg Prod.fst hpq2
        simpa using hfst
      have h1b : npArgmin ((nzCols g.dim row).map fun j =>
          lnaManyAt g i j (lnyManyAt g i j
            (tAt g i j (logF lg (some (row.getD j 0)))))) = some pq.1 := by
        rw [hlnaB]
        simp only [npArgmin, firstNone_map_some, hpq1, Option.map_some']
      have h2b : ((nzCols g.dim row).map fun j =>
          tAt g i j (logF lg (some (row.getD j 0)))).getD pq.1 none
            = some (tQ g lg i j1 (row.getD j1 0)) := by
        rw [getD_map_of_lt _ _ pq.1 0 none hplen, hk,
          logF_pos lg _ (hposval j1 hj1d hj1nz)]
        rfl
      have hm := manySample_eval g lg row (nzCols g.dim row) i pq.1 _ h1b h2b
      rw [hk] at hm
      exact hm

theorem nzCols_nil_of_zero (d : ℕ) (row : List ℚ) (h0 : ∀ x ∈ row, x = 0) :
    nzCols d row = [] := by
  unfold nzCols
  rw [List.filter_eq_nil_iff]
  intro j _
  simp only [decide_eq_true_eq]
  intro hne
  apply hne
  by_cases hlt : j < row.length
  · exact h0 _ (getD_mem_of_lt row j 0 hlt)
  · exact getD_of_length_le row j 0 (le_of_not_lt hlt)

theorem rowSketch_zero (g : Generator) (lg : ℚ → ℚ) (row : List ℚ)
    (h0 : ∀ x ∈ row, x = 0) : rowSketch g lg row = .ok none := by
  simp [rowSketch, nzCols_nil_of_zero g.dim row h0]

theorem rowSketch_nonzero (g : Generator) (lg : ℚ → ℚ) (row : List ℚ)
    (hL : row.length = g.dim) (hNN : ∀ x ∈ row, 0 ≤ x)
    (hNZ : ∃ j, j < g.dim ∧ row.getD j 0 ≠ 0) :
    ∃ hv, rowSketch g lg row = .ok (some hv) ∧
      exceptMap (singleSample g (vlogOf lg row)) (List.range g.sample_size) = .ok hv ∧
      hv.length = g.sample_size := by
  have hcongr : exceptMap (singleSample g (vlogOf lg row)) (List.range g.sample_size)
      = exceptMap (manySample g lg row (nzCols g.dim row)) (List.range g.sample_size) := by
    apply exceptMap_congr
    intro i _
    obtain ⟨kt, h1, h2⟩ := sample_agree g lg row i hL hNN hNZ
    rw [h1, h2]
  obtain ⟨hv, hok, hlen, _⟩ := exceptMap_ok_of_all (singleSample g (vlogOf lg row)) 0 (0, 0)
    (List.range g.sample_size) (fun i _ => by
      obtain ⟨kt, h1, _⟩ := sample_agree g lg row i hL hNN hNZ
      exact ⟨kt, h1⟩)
  obtain ⟨j0, hj0d, hj0nz⟩ := hNZ
  have hne : nzCols g.dim row ≠ [] :=
    List.ne_nil_of_mem (nzCols_mem g.dim row j0 hj0d hj0nz)
  refine ⟨hv, ?_, hok, by rw [hlen, List.length_range]⟩
  simp only [rowSketch]
  rw [if_neg (by simpa using hne), ← hcongr, hok]
  rfl

theorem exists_nonzero_index (row : List ℚ) (d : ℕ) (hL : row.length = d)
    (h : ¬ ∀ x ∈ row, x = 0) : ∃ j, j < d ∧ row.getD j 0 ≠ 0 := by
  push_neg at h
  obtain ⟨x, hx1, hx2⟩ := h
  obtain ⟨j, hj, hxe⟩ := List.mem_iff_getElem.mp hx1
  refine ⟨j, by rw [← hL]; exact hj, ?_⟩
  rw [List.getD_eq_getElem?_getD, List.getElem?_eq_getElem hj]
  simpa [hxe] using hx2

theorem minhash_eq_of_nonzero (g : Generator) (lg : ℚ → ℚ) (v : List ℚ)
    (hL : v.length = g.dim) (hNZ : ∃ j, j < g.dim ∧ v.getD j 0 ≠ 0) :
    minhash g lg v = (exceptMap (singleSample g (vlogOf lg v))
      (List.range g.sample_size)).map (WeightedMinHash.mk g.seed) := by
  obtain ⟨j, hjd, hjnz⟩ := hNZ
  have hall : ¬ (v.all fun q => decide (q = 0)) = true := by
    rw [List.all_eq_true]
    intro H
    exact hjnz (of_decide_eq_true (H _ (getD_mem_of_lt v j 0 (by rw [hL]; exact hjd))))
  unfold minhash minhashInPlace
  rw [if_neg (not_not_intro hL), if_neg hall]

theorem minhash_allZero (g : Generator) (lg : ℚ → ℚ) (v : List ℚ)
    (hL : v.length = g.dim) (h0 : ∀ x ∈ v, x = 0) :
    minhash g lg v = .error .allZero := by
  unfold minhash minhashInPlace
  rw [if_neg (not_not_intro hL),
    if_pos (List.all_eq_true.mpr fun x hx => decide_eq_true (h0 x hx))]

theorem minhash_ok_inv (g : Generator) (lg : ℚ → ℚ) (v : List ℚ) (s : WeightedMinHash)
    (h : minhash g lg v = .ok s) :
    v.length = g.dim ∧ ∃ hv,
      exceptMap (singleSample g (vlogOf lg v)) (List.range g.sample_size) = .ok hv ∧
      s = ⟨g.seed, hv⟩ ∧ hv.length = g.sample_size := by
  unfold minhash minhashInPlace at h
  by_cases hlen : v.length ≠ g.dim
  · rw [if_pos hlen] at h
    exact absurd h (by simp)
  · rw [if_neg hlen] at h
    push_neg at hlen
    by_cases hall : (v.all fun q => decide (q = 0)) = true
    · rw [if_pos hall] at h
      exact absurd h (by simp)
    · rw [if_neg hall] at h
      rcases hem : exceptMap (singleSample g (vlogOf lg v)) (List.range g.sample_size)
        with e | hv
      · rw [hem] at h
        exact absurd h (by simp [Except.map])
      · rw [hem] at h
        have hs : WeightedMinHash.mk g.seed hv = s := by simpa [Except.map] using h
        obtain ⟨hl, _⟩ := exceptMap_ok_inv _ 0 ((0 : ℕ), (0 : ℤ)) _ hv hem
        exact ⟨hlen, hv, rfl, hs.symm, by rw [hl, List.length_range]⟩

theorem firstNone_bounds : ∀ (l : List (Option ℚ)) (n i : ℕ),
    firstNone n l = some i → n ≤ i ∧ i - n < l.length := by
  intro l
  induction l with
  | nil => intro n i h; simp [firstNone] at h
  | cons x t ih =>
    intro n i h
    cases x with
    | none =>
      have hi : n = i := by simpa [firstNone] using h
      rw [← hi]
      simp
    | some q =>
      obtain ⟨h1, h2⟩ := ih (n + 1) i (by simpa [firstNone] using h)
      refine ⟨by omega, ?_⟩
      simp only [List.length_cons]
      omega

theorem npArgmin_lt (l : List (Option ℚ)) (p : ℕ) (h : npArgmin l = some p) :
    p < l.length := by
  rcases hf : firstNone 0 l with _ | i
  · simp only [npArgmin, hf] at h
    obtain ⟨pq, hpq1, hpq2⟩ := Option.map_eq_some'.mp h
    obtain ⟨_, h2⟩ := selMinIdx_bounds l 0 pq hpq1
    omega
  · simp only [npArgmin, hf, Option.some_inj] at h
    obtain ⟨_, h2⟩ := firstNone_bounds l 0 i hf
    omega

theorem csrRowOfDense_eq (d : ℕ) (row : List ℚ) :
    csrRowOfDense d row = (nzCols d row).map fun j => (j, row.getD j 0) := by
  unfold csrRowOfDense nzCols
  generalize List.range d = l
  induction l with
  | nil => rfl
  | cons c t ih =>
    simp only [List.filterMap_cons, List.filter_cons]
    by_cases h0 : row.getD c 0 = 0
    · rw [if_pos h0,
        if_neg (by simp only [decide_eq_true_eq]; exact fun hc => hc h0)]
      exact ih
    · rw [if_neg h0, if_pos (decide_eq_true h0)]
      simp only [List.map_cons]
      rw [← ih]

theorem csrRowOfDense_snd_ne (d : ℕ) (row : List ℚ) :
    ∀ e ∈ csrRowOfDense d row, e.2 ≠ 0 := by
  intro e he
  unfold csrRowOfDense at he
  obtain ⟨j, _, hj⟩ := List.mem_filterMap.mp he
  by_cases h0 : row.getD j 0 = 0
  · rw [if_pos h0] at hj
    exact absurd hj (by simp)
  · rw [if_neg h0] at hj
    have he2 : (j, row.getD j 0) = e := by simpa using hj
    rw [← he2]
    exact h0

theorem trueNonzeros_dense (d : ℕ) (X : List (List ℚ)) :
    trueNonzeros (X.map (csrRowOfDense d)) = (X.map (csrRowOfDense d)).flatten := by
  unfold trueNonzeros
  rw [List.filter_eq_self]
  intro e he
  obtain ⟨r, hr, her⟩ := List.mem_flatten.mp he
  obtain ⟨row, _, hrow⟩ := List.mem_map.mp hr
  rw [← hrow] at her
  exact decide_eq_true (csrRowOfDense_snd_ne d row e her)

theorem getD_map_nested (acc row rest : List (ℕ × ℚ)) (f : ℕ × ℚ → Option ℤ)
    (p : ℕ) (hp : p < row.length) :
    ((acc ++ (row ++ rest)).map f).getD (acc.length + p) none
      = (row.map f).getD p none := by
  rw [List.getD_eq_getElem?_getD, List.getD_eq_getElem?_getD, List.map_append,
    List.getElem?_append_right (by simp), List.map_append]
  have hi : acc.length + p - (acc.map f).length = p := by simp
  rw [hi, List.getElem?_append, if_pos (by simpa using hp)]

theorem rowHash_aligned (g : Generator) (lg : ℚ → ℚ) (acc rest : List (ℕ × ℚ))
    (row : List ℚ) :
    rowHash g lg (acc ++ (csrRowOfDense g.dim row ++ rest)) acc.length
        (acc.length + (csrRowOfDense g.dim row).length)
      = exceptMap (manySample g lg row (nzCols g.dim row))
          (List.range g.sample_size) := by
  have hslice : ((acc ++ (csrRowOfDense g.dim row ++ rest)).drop acc.length).take
      (acc.length + (csrRowOfDense g.dim row).length - acc.length)
        = csrRowOfDense g.dim row := by
    rw [Nat.add_sub_cancel_left, List.drop_left, List.take_left]
  simp only [rowHash, hslice]
  apply exceptMap_congr
  intro i _
  have hpairs := csrRowOfDense_eq g.dim row
  have hlna : (csrRowOfDense g.dim row).map (manyEntryLnA g lg i)
      = (nzCols g.dim row).map fun j =>
          lnaManyAt g i j (lnyManyAt g i j (tAt g i j (logF lg (some (row.getD j 0))))) := by
    rw [hpairs, List.map_map]
    rfl
  have hfst : (csrRowOfDense g.dim row).map Prod.fst = nzCols g.dim row := by
    rw [hpairs, List.map_map]
    have hid : (Prod.fst ∘ fun j => ((j : ℕ), row.getD j 0)) = fun (j : ℕ) => j := rfl
    rw [hid]
    exact List.map_id' _
  simp only [manySample]
  rw [hlna]
  rcases harg : npArgmin ((nzCols g.dim row).map fun j =>
      lnaManyAt g i j (lnyManyAt g i j (tAt g i j (logF lg (some (row.getD j 0))))))
    with _ | p
  · rfl
  · have hp : p < (nzCols g.dim row).length := by
      have h1 := npArgmin_lt _ _ harg
      simpa using h1
    have hplen : p < (csrRowOfDense g.dim row).length := by
      rw [hpairs, List.length_map]
      exact hp
    have ht : ((acc ++ (csrRowOfDense g.dim row ++ rest)).map
        (manyEntryT g lg i)).getD (acc.length + p) none
          = ((nzCols g.dim row).map fun j =>
              tAt g i j (logF lg (some (row.getD j 0)))).getD p none := by
      rw [getD_map_nested acc _ rest (manyEntryT g lg i) p hplen, hpairs,
        List.map_map]
      rfl
    simp only [ht, hfst]

theorem docLoop_dense (g : Generator) (lg : ℚ → ℚ) :
    ∀ (X : List (List ℚ)) (acc : List (ℕ × ℚ)),
      docLoop g lg (acc ++ (X.map (csrRowOfDense g.dim)).flatten) acc.length
          (X.map (csrRowOfDense g.dim))
        = exceptMap (rowSketch g lg) X := by
  intro X
  induction X with
  | nil => intro acc; rfl
  | cons r Xs ih =>
    intro acc
    rw [List.map_cons, List.flatten_cons]
    by_cases hz : (csrRowOfDense g.dim r).length = 0
    · have hsrow : csrRowOfDense g.dim r = [] := List.length_eq_zero.mp hz
      have hcols : nzCols g.dim r = [] := by
        have h1 := csrRowOfDense_eq g.dim r
        rw [hsrow] at h1
        exact List.map_eq_nil_iff.mp h1.symm
      have hrs : rowSketch g lg r = .ok none := by
        simp [rowSketch, hcols]
      rw [hsrow]
      simp only [docLoop, List.length_nil, List.nil_append, Nat.add_zero]
      rw [if_pos trivial, ih acc]
      simp only [exceptMap, hrs]
      rcases hXs : exceptMap (rowSketch g lg) Xs with err | bs <;>
        simp [hXs, Except.map]
    · have hne : nzCols g.dim r ≠ [] := by
        intro hc
        apply hz
        rw [csrRowOfDense_eq g.dim r, hc]
        rfl
      have hrs : rowSketch g lg r
          = (exceptMap (manySample g lg r (nzCols g.dim r))
              (List.range g.sample_size)).map some := by
        simp only [rowSketch]
        rw [if_neg (by simpa using hne)]
      have hrh := rowHash_aligned g lg acc ((Xs.map (csrRowOfDense g.dim)).flatten) r
      simp only [docLoop]
      rw [if_neg hz, hrh]
      have hass : acc ++ (csrRowOfDense g.dim r ++ (Xs.map (csrRowOfDense g.dim)).flatten)
          = (acc ++ csrRowOfDense g.dim r) ++ (Xs.map (csrRowOfDense g.dim)).flatten :=
        (List.append_assoc _ _ _).symm
      have hlen : acc.length + (csrRowOfDense g.dim r).length
          = (acc ++ csrRowOfDense g.dim r).length := (List.length_append _ _).symm
      rw [hass, hlen, ih (acc ++ csrRowOfDense g.dim r)]
      rcases hms : exceptMap (manySample g lg r (nzCols g.dim r))
          (List.range g.sample_size) with err | hv
      · simp only [exceptMap, hrs, hms, Except.map]
      · simp only [exceptMap, hrs, hms, Except.map]
        rcases hXs : exceptMap (rowSketch g lg) Xs with err2 | bs <;>
          simp [hXs, Except.map]

theorem minhash_many_eq (g : Generator) (lg : ℚ → ℚ) (X : List (List ℚ))
    (hL : ∀ row ∈ X, row.length = g.dim) (hn : g.sample_size ≠ 0) :
    minhash_many g lg X = (exceptMap (rowSketch g lg) X).map fun bs =>
      bs.map (Option.map (WeightedMinHash.mk g.seed)) := by
  unfold minhash_many minhash_manyCore
  rw [if_neg (not_not_intro (List.all_eq_true.mpr
      fun row hrow => decide_eq_true (hL row hrow))), if_neg hn,
    trueNonzeros_dense g.dim X]
  have hd := docLoop_dense g lg X []
  simp only [List.nil_append, List.length_nil] at hd
  rw [hd]

theorem minhash_many_ok_inv (g : Generator) (lg : ℚ → ℚ) (X : List (List ℚ))
    (res : List (Option WeightedMinHash)) (h : minhash_many g lg X = .ok res) :
    g.sample_size ≠ 0 ∧ ∃ bs, exceptMap (rowSketch g lg) X = .ok bs ∧
      res = bs.map (Option.map (WeightedMinHash.mk g.seed)) ∧ bs.length = X.length := by
  unfold minhash_many minhash_manyCore at h
  by_cases h1 : ¬ X.all (fun row => decide (row.length = g.dim)) = true
  · rw [if_pos h1] at h
    exact absurd h (by simp)
  · rw [if_neg h1] at h
    by_cases h2 : g.sample_size = 0
    · rw [if_pos h2] at h
      exact absurd h (by simp)
    · rw [if_neg h2] at h
      rw [trueNonzeros_dense g.dim X] at h
      have hd := docLoop_dense g lg X []
      simp only [List.nil_append, List.length_nil] at hd
      rw [hd] at h
      rcases hem : exceptMap (rowSketch g lg) X with e | bs
      · rw [hem] at h
        exact absurd h (by simp [Except.map])
      · rw [hem] at h
        have hres : bs.map (Option.map (WeightedMinHash.mk g.seed)) = res := by
          simpa [Except.map] using h
        obtain ⟨hl, _⟩ := exceptMap_ok_inv _ ([] : List ℚ)
          (none : Option (List (ℕ × ℤ))) X bs hem
        exact ⟨h2, bs, rfl, hres.symm, hl⟩

theorem rowSketch_ok_some_inv (g : Generator) (lg : ℚ → ℚ) (row : List ℚ)
    (hv : List (ℕ × ℤ)) (h : rowSketch g lg row = .ok (some hv)) :
    exceptMap (manySample g lg row (nzCols g.dim row)) (List.range g.sample_size)
      = .ok hv := by
  simp only [rowSketch] at h
  by_cases he : (nzCols g.dim row).isEmpty = true
  · rw [if_pos he] at h
    exact absurd h (by simp)
  · rw [if_neg he] at h
    rcases hem : exceptMap (manySample g lg row (nzCols g.dim row))
        (List.range g.sample_size) with e | bs
    · rw [hem] at h
      exact absurd h (by simp [Except.map])
    · rw [hem] at h
      have hbs : bs = hv := by simpa [Except.map] using h
      rw [← hbs]

theorem singleSample_ok_inv (g : Generator) (lg : ℚ → ℚ) (v : List ℚ) (i : ℕ)
    (kt : ℕ × ℤ) (hL : v.length = g.dim)
    (h : singleSample g (vlogOf lg v) i = .ok kt) :
    kt.1 < g.dim ∧ 0 < v.getD kt.1 0 := by
  simp only [singleSample] at h
  split at h
  · exact absurd h (by simp)
  · rename_i k heq
    split at h
    · rename_i tk heq2
      have hkt : (k, tk) = kt := by simpa using h
      have hklt : k < g.dim := by
        by_contra hk
        rw [getD_of_length_le _ k none (by simpa using le_of_not_lt hk)] at heq2
        exact absurd heq2 (by simp)
      rw [getD_map_of_lt _ _ k 0 none (by simpa using hklt), range_getD _ _ hklt] at heq2
      simp only [tAt] at heq2
      obtain ⟨x, hx1, _⟩ := Option.map_eq_some'.mp heq2
      rw [vlogOf_getD lg v k (by rw [hL]; exact hklt)] at hx1
      by_cases h0 : v.getD k 0 = 0
      · rw [if_pos h0] at hx1
        exact absurd hx1 (by simp [logF])
      · rw [if_neg h0] at hx1
        obtain ⟨q, hq1, hq2, _⟩ := logF_eq_some_inv lg _ x hx1
        have hq : v.getD k 0 = q := Option.some_inj.mp hq1
        rw [← hkt]
        exact ⟨hklt, by rw [hq]; exact hq2⟩
    · exact absurd h (by simp)

theorem manySample_ok_inv (g : Generator) (lg : ℚ → ℚ) (row : List ℚ)
    (cols : List ℕ) (i : ℕ) (kt : ℕ × ℤ)
    (h : manySample g lg row cols i = .ok kt) :
    kt.1 ∈ cols ∧ 0 < row.getD kt.1 0 := by
  simp only [manySample] at h
  split at h
  · exact absurd h (by simp)
  · rename_i p heq
    split at h
    · rename_i tk heq2
      have hkt : (cols.getD p 0, tk) = kt := by simpa using h
      have hplen : p < cols.length := by
        by_contra hnp
        rw [getD_of_length_le _ p none (by simpa using le_of_not_lt hnp)] at heq2
        exact absurd heq2 (by simp)
      rw [getD_map_of_lt _ cols p 0 none hplen] at heq2
      simp only [tAt] at heq2
      obtain ⟨x, hx1, _⟩ := Option.map_eq_some'.mp heq2
      obtain ⟨q, hq1, hq2, _⟩ := logF_eq_some_inv lg _ x hx1
      have hq : row.getD (cols.getD p 0) 0 = q := Option.some_inj.mp hq1
      rw [← hkt]
      exact ⟨getD_mem_of_lt cols p 0 hplen, by rw [hq]; exact hq2⟩
    · exact absurd h (by simp)

theorem countP_zip_self (l : List (ℕ × ℤ)) :
    ((l.zip l).countP fun p => decide (p.1 = p.2)) = l.length := by
  induction l with
  | nil => rfl
  | cons a t ih => simp [List.zip_cons_cons, List.countP_cons, ih]

/-- Supporting lemma (the aligned case of the batch/single comparison): on
a DENSE input, whose csr conversion stores no explicit zeros so the row
slices stay aligned, with nonnegative weights and sample_size ≥ 1, every
row r with a nonzero weight has minhash_many(X)[r] equal (same seed,
element-wise equal hashvalues) to minhash(X[r]) — under this embedding's
exact rational arithmetic, where the batched formula
ln_cs - (t - beta + 1)*rs coincides with the scalar formula
ln_cs - (t - beta)*rs - rs. -/
theorem dense_batch_matches_single (g : Generator) (lg : ℚ → ℚ) (X : List (List ℚ))
    (r : ℕ) (hL : ∀ row ∈ X, row.length = g.dim)
    (hNN : ∀ row ∈ X, ∀ x ∈ row, 0 ≤ x)
    (hn : g.sample_size ≠ 0) (hr : r < X.length)
    (hNZ : ∃ j, j < g.dim ∧ (X.getD r []).getD j 0 ≠ 0) :
    ∃ res s, minhash_many g lg X = .ok res ∧ res.getD r none = some s ∧
      minhash g lg (X.getD r []) = .ok s := by
  have hrowAll : ∀ row ∈ X, ∃ b, rowSketch g lg row = .ok b := by
    intro row hrow
    by_cases hz : ∀ x ∈ row, x = 0
    · exact ⟨none, rowSketch_zero g lg row hz⟩
    · obtain ⟨hv, h1, _, _⟩ := rowSketch_nonzero g lg row (hL row hrow) (hNN row hrow)
        (exists_nonzero_index row g.dim (hL row hrow) hz)
      exact ⟨some hv, h1⟩
  obtain ⟨bs, hbs, hblen, hbidx⟩ := exceptMap_ok_of_all (rowSketch g lg) [] none X hrowAll
  have hrmem : X.getD r [] ∈ X := getD_mem_of_lt X r [] hr
  obtain ⟨hv, hrs, hsingles, _⟩ := rowSketch_nonzero g lg (X.getD r [])
    (hL _ hrmem) (hNN _ hrmem) hNZ
  have hbr : bs.getD r none = some hv := by
    have h1 := hbidx r hr
    rw [hrs] at h1
    have h2 : some hv = bs.getD r none := by simpa using h1
    exact h2.symm
  refine ⟨bs.map (Option.map (WeightedMinHash.mk g.seed)), ⟨g.seed, hv⟩, ?_, ?_, ?_⟩
  · rw [minhash_many_eq g lg X hL hn, hbs]
    rfl
  · rw [getD_map_of_lt _ bs r none none (by rw [hblen]; exact hr), hbr]
    rfl
  · rw [minhash_eq_of_nonzero g lg (X.getD r []) (hL _ hrmem) hNZ, hsingles]
    rfl

/-- Supporting lemma (the aligned case of the empty-row contract): on a
DENSE nonnegative input with sample_size ≥ 1, an all-zero row r makes
minhash_many return None at position r without raising, every other
nonzero row gets exactly the sketch the single-vector transform yields,
and minhash on that same all-zero vector raises AllZero. -/
theorem dense_zero_row_yields_none (g : Generator) (lg : ℚ → ℚ) (X : List (List ℚ))
    (r : ℕ) (hL : ∀ row ∈ X, row.length = g.dim)
    (hNN : ∀ row ∈ X, ∀ x ∈ row, 0 ≤ x)
    (hn : g.sample_size ≠ 0) (hr : r < X.length)
    (hz : ∀ x ∈ X.getD r [], x = 0) :
    ∃ res, minhash_many g lg X = .ok res ∧ res.getD r none = none ∧
      (∀ r2, r2 < X.length → r2 ≠ r →
        (∃ j, j < g.dim ∧ (X.getD r2 []).getD j 0 ≠ 0) →
        ∃ s, res.getD r2 none = some s ∧ minhash g lg (X.getD r2 []) = .ok s) ∧
      minhash g lg (X.getD r []) = .error .allZero := by
  have hrowAll : ∀ row ∈ X, ∃ b, rowSketch g lg row = .ok b := by
    intro row hrow
    by_cases hzr : ∀ x ∈ row, x = 0
    · exact ⟨none, rowSketch_zero g lg row hzr⟩
    · obtain ⟨hv, h1, _, _⟩ := rowSketch_nonzero g lg row (hL row hrow) (hNN row hrow)
        (exists_nonzero_index row g.dim (hL row hrow) hzr)
      exact ⟨some hv, h1⟩
  obtain ⟨bs, hbs, hblen, hbidx⟩ := exceptMap_ok_of_all (rowSketch g lg) [] none X hrowAll
  refine ⟨bs.map (Option.map (WeightedMinHash.mk g.seed)), ?_, ?_, ?_, ?_⟩
  · rw [minhash_many_eq g lg X hL hn, hbs]
    rfl
  · have h1 := hbidx r hr
    rw [rowSketch_zero g lg (X.getD r []) hz] at h1
    have hbr : bs.getD r none = none := by
      have h2 : (none : Option (List (ℕ × ℤ))) = bs.getD r none := by simpa using h1
      exact h2.symm
    rw [getD_map_of_lt _ bs r none none (by rw [hblen]; exact hr), hbr]
    rfl
  · intro r2 hr2 _ hNZ2
    have hmem2 : X.getD r2 [] ∈ X := getD_mem_of_lt X r2 [] hr2
    obtain ⟨hv, hrs2, hsingles2, _⟩ := rowSketch_nonzero g lg (X.getD r2 [])
      (hL _ hmem2) (hNN _ hmem2) hNZ2
    have h1 := hbidx r2 hr2
    rw [hrs2] at h1
    have hbr2 : bs.getD r2 none = some hv := by
      have h2 : some hv = bs.getD r2 none := by simpa using h1
      exact h2.symm
    refine ⟨⟨g.seed, hv⟩, ?_, ?_⟩
    · rw [getD_map_of_lt _ bs r2 none none (by rw [hblen]; exact hr2), hbr2]
      rfl
    · rw [minhash_eq_of_nonzero g lg (X.getD r2 []) (hL _ hmem2) hNZ2, hsingles2]
      rfl
  · exact minhash_allZero g lg (X.getD r []) (hL _ (getD_mem_of_lt X r [] hr)) hz

/-- C2 (code bug): minhash on a float32 ndarray containing a zero takes no
copy (lines 125-128) and line 133 writes NaN over the caller's zero
entries: after the call the caller's buffer is [1, NaN], not [1, 0]. -/
theorem C2_float32_input_mutated :
    minhashInPlace gEx lgEx [1, 0]
      = (Except.ok ⟨7, [(0, 0)]⟩, [some 1, none]) ∧
    ([some 1, none] : List (Option ℚ)) ≠ ([1, 0] : List ℚ).map some := by
  constructor <;> with_unfolding_all decide

/-- C3 (amended: nonzero length required for the value case): jaccard raises
its seed/length ValueErrors exactly when the seeds or the lengths differ;
on compatible sketches of nonzero length it returns the number of equal
(k, t) pairs divided by the length, a value in [0, 1].  (Compatible
zero-length sketches instead raise ZeroDivisionError, see the
counterexample.) -/
theorem C3_jaccard_contract (a b : WeightedMinHash) :
    ((∃ e, jaccard a b = .error e ∧ (e = Err.seedMismatch ∨ e = Err.lengthMismatch)) ↔
      (a.seed ≠ b.seed ∨ a.hashvalues.length ≠ b.hashvalues.length)) ∧
    (a.seed = b.seed → a.hashvalues.length = b.hashvalues.length →
      0 < a.hashvalues.length →
      ∃ q, jaccard a b = .ok q ∧
        q = (((a.hashvalues.zip b.hashvalues).countP fun p => decide (p.1 = p.2)) : ℚ)
          / (a.hashvalues.length : ℚ) ∧ 0 ≤ q ∧ q ≤ 1) := by
  constructor
  · constructor
    · rintro ⟨e, he, hdisj⟩
      by_cases h1 : a.seed ≠ b.seed
      · exact Or.inl h1
      · by_cases h2 : a.hashvalues.length ≠ b.hashvalues.length
        · exact Or.inr h2
        · exfalso
          unfold jaccard at he
          rw [if_neg h1, if_neg h2] at he
          by_cases h3 : a.hashvalues.length = 0
          · rw [if_pos h3] at he
            have he2 : e = Err.zeroDivision := by simpa using he.symm
            rcases hdisj with hd | hd <;> rw [he2] at hd <;>
              exact absurd hd (by decide)
          · rw [if_neg h3] at he
            exact absurd he (by simp)
    · intro hdisj
      unfold jaccard
      by_cases h1 : a.seed ≠ b.seed
      · exact ⟨Err.seedMismatch, by rw [if_pos h1], Or.inl rfl⟩
      · have h2 : a.hashvalues.length ≠ b.hashvalues.length := hdisj.resolve_left h1
        exact ⟨Err.lengthMismatch, by rw [if_neg h1, if_pos h2], Or.inr rfl⟩
  · intro hseed hlen hpos
    unfold jaccard
    rw [if_neg (not_not_intro hseed), if_neg (not_not_intro hlen),
      if_neg (Nat.pos_iff_ne_zero.mp hpos)]
    refine ⟨_, rfl, rfl, ?_, ?_⟩
    · exact div_nonneg (Nat.cast_nonneg _) (Nat.cast_nonneg _)
    · rw [div_le_one (by exact_mod_cast hpos)]
      have hzlen : (a.hashvalues.zip b.hashvalues).length = a.hashvalues.length := by
        rw [List.length_zip, ← hlen, min_self]
      have hc : (a.hashvalues.zip b.hashvalues).countP (fun p => decide (p.1 = p.2))
          ≤ (a.hashvalues.zip b.hashvalues).length := List.countP_le_length _
      rw [hzlen] at hc
      exact_mod_cast hc

/-- C3 witness: the amended contract applied to two concrete equal
sketches. -/
theorem C3_witness :
    ∃ q, jaccard ⟨1, [(0, 0)]⟩ ⟨1, [(0, 0)]⟩ = .ok q ∧
      q = (((([(0, 0)] : List (ℕ × ℤ)).zip [(0, 0)]).countP
          fun p => decide (p.1 = p.2)) : ℚ) / (([(0, 0)] : List (ℕ × ℤ)).length : ℚ) ∧
      0 ≤ q ∧ q ≤ 1 :=
  (C3_jaccard_contract ⟨1, [(0, 0)]⟩ ⟨1, [(0, 0)]⟩).2 rfl rfl (by decide)

/-- C3 counterexample: two sketches with equal seeds and equal (zero)
lengths: jaccard raises ZeroDivisionError instead of returning a value in
[0, 1], because float(0)/float(0) divides by zero. -/
theorem C3_counterexample :
    jaccard ⟨1, []⟩ ⟨1, []⟩ = Except.error Err.zeroDivision ∧
    ∀ q : ℚ, jaccard ⟨1, []⟩ ⟨1, []⟩ ≠ Except.ok q := by
  have h : jaccard ⟨1, []⟩ ⟨1, []⟩ = Except.error Err.zeroDivision := by
    with_unfolding_all decide
  refine ⟨h, ?_⟩
  intro q hq
  rw [h] at hq
  exact absurd hq (by simp)

/-- C5 (amended): __init__ performs no validation of dim and sample_size;
construction fails (with numpy's negative-dimension ValueError) exactly when
dim < 0 or sample_size < 0, and succeeds for all nonnegative arguments —
in particular dim = 0 or sample_size = 0 do NOT fail, contradicting the
claimed InvalidArgument on every value ≤ 0. -/
theorem C5_init_validation (lg : ℚ → ℚ) (d n s : ℤ) :
    ((∃ e, generatorInit lg d n s = .error e) ↔ (d < 0 ∨ n < 0)) ∧
    (0 ≤ d → 0 ≤ n → generatorInit lg d n s = .ok (mkGenerator lg d.toNat n.toNat s)) := by
  unfold generatorInit
  constructor
  · constructor
    · rintro ⟨e, he⟩
      by_cases h : d < 0 ∨ n < 0
      · exact h
      · rw [if_neg h] at he
        exact absurd he (by simp)
    · intro h
      exact ⟨Err.negativeDimension, by rw [if_pos h]⟩
  · intro h1 h2
    rw [if_neg (by omega)]

/-- C5 witness: nonnegative arguments construct a generator with no
error. -/
theorem C5_witness :
    (0 : ℤ) ≤ 2 ∧ (0 : ℤ) ≤ 3 ∧
    generatorInit lgEx 2 3 1 = .ok (mkGenerator lgEx (2 : ℤ).toNat (3 : ℤ).toNat 1) :=
  ⟨by decide, by decide,
    (C5_init_validation lgEx 2 3 1).2 (by decide) (by decide)⟩

/-- C5 counterexample: dim = 0 (≤ 0) does not raise: the construction
succeeds, contradicting the claimed InvalidArgument failure for dim ≤ 0. -/
theorem C5_counterexample :
    generatorInit lgEx 0 128 1 = Except.ok (mkGenerator lgEx 0 128 1) := rfl

/-- C6: two generators built from identical (dim, sample_size, seed) have
identical rs, ln_cs and betas matrices (the three are drawn from the same
seeded stream in a fixed order), and consequently minhash agrees on every
input. -/
theorem C6_deterministic_construction (lg : ℚ → ℚ) (d n : ℕ) (s : ℤ)
    (d2 n2 : ℕ) (s2 : ℤ) (h1 : d = d2) (h2 : n = n2) (h3 : s = s2) :
    (mkGenerator lg d n s).rs = (mkGenerator lg d2 n2 s2).rs ∧
    (mkGenerator lg d n s).ln_cs = (mkGenerator lg d2 n2 s2).ln_cs ∧
    (mkGenerator lg d n s).betas = (mkGenerator lg d2 n2 s2).betas ∧
    ∀ v, minhash (mkGenerator lg d n s) lg v = minhash (mkGenerator lg d2 n2 s2) lg v := by
  subst h1
  subst h2
  subst h3
  exact ⟨rfl, rfl, rfl, fun _ => rfl⟩

/-- C6 witness: determinism at concrete arguments. -/
theorem C6_witness :
    (2 : ℕ) = 2 ∧ (1 : ℕ) = 1 ∧ (7 : ℤ) = 7 ∧
    ((mkGenerator lgEx 2 1 7).rs = (mkGenerator lgEx 2 1 7).rs ∧
      (mkGenerator lgEx 2 1 7).ln_cs = (mkGenerator lgEx 2 1 7).ln_cs ∧
      (mkGenerator lgEx 2 1 7).betas = (mkGenerator lgEx 2 1 7).betas ∧
      ∀ v, minhash (mkGenerator lgEx 2 1 7) lgEx v
        = minhash (mkGenerator lgEx 2 1 7) lgEx v) :=
  ⟨rfl, rfl, rfl, C6_deterministic_construction lgEx 2 1 7 2 1 7 rfl rfl rfl⟩

/-- C7 (amended: sample_size ≥ 1 required for the similarity value): two
calls of minhash on the same vector return equal sketches, and when
sample_size is nonzero the jaccard similarity of the two results is exactly
1. -/
theorem C7_self_similarity (g : Generator) (lg : ℚ → ℚ) (v : List ℚ)
    (s s2 : WeightedMinHash) (h1 : minhash g lg v = .ok s)
    (h2 : minhash g lg v = .ok s2) :
    s = s2 ∧ (g.sample_size ≠ 0 → jaccard s s2 = .ok 1) := by
  have hss : s = s2 := by
    have h3 := h1.symm.trans h2
    simpa using h3
  subst hss
  refine ⟨rfl, ?_⟩
  intro hn
  obtain ⟨_, hv, _, hs, hlen⟩ := minhash_ok_inv g lg v s h1
  have hlenS : s.hashvalues.length = g.sample_size := by
    rw [hs]
    exact hlen
  have hne : (s.hashvalues.length : ℚ) ≠ 0 := by
    rw [hlenS]
    exact_mod_cast hn
  unfold jaccard
  rw [if_neg (not_not_intro rfl), if_neg (not_not_intro rfl),
    if_neg (by rw [hlenS]; exact hn), countP_zip_self, div_self hne]

/-- C7 witness: self-similarity at a concrete generator and vector. -/
theorem C7_witness :
    minhash gEx lgEx [1, 0] = Except.ok ⟨7, [(0, 0)]⟩ ∧
    (⟨7, [(0, 0)]⟩ : WeightedMinHash) = ⟨7, [(0, 0)]⟩ ∧
    jaccard ⟨7, [(0, 0)]⟩ ⟨7, [(0, 0)]⟩ = .ok 1 := by
  have h1 : minhash gEx lgEx [1, 0] = Except.ok ⟨7, [(0, 0)]⟩ := by
    with_unfolding_all decide
  have h := C7_self_similarity gEx lgEx [1, 0] ⟨7, [(0, 0)]⟩ ⟨7, [(0, 0)]⟩ h1 h1
  exact ⟨h1, h.1, h.2 (by with_unfolding_all decide)⟩

/-- C7 counterexample: a generator with sample_size = 0 (constructible: no
validation) produces empty sketches whose self-jaccard raises
ZeroDivisionError instead of returning 1.0. -/
theorem C7_counterexample :
    minhash gZ lgEx [1] = Except.ok ⟨1, ([] : List (ℕ × ℤ))⟩ ∧
    jaccard ⟨1, ([] : List (ℕ × ℤ))⟩ ⟨1, ([] : List (ℕ × ℤ))⟩
      = Except.error Err.zeroDivision := by
  constructor <;> with_unfolding_all decide

/-- Supporting lemma (the aligned case of the shape/support invariant):
every sketch minhash returns, and every non-None sketch minhash_many
returns on a DENSE input, has exactly sample_size (k, t) pairs, each
recorded index k lies in [0, dim), and the input weight at k is strictly
positive. -/
theorem dense_sketch_shape_and_support (g : Generator) (lg : ℚ → ℚ) :
    (∀ v s, minhash g lg v = .ok s →
      s.hashvalues.length = g.sample_size ∧
      ∀ kt ∈ s.hashvalues, kt.1 < g.dim ∧ 0 < v.getD kt.1 0) ∧
    (∀ X res r s, minhash_many g lg X = .ok res → res.getD r none = some s →
      s.hashvalues.length = g.sample_size ∧
      ∀ kt ∈ s.hashvalues, kt.1 < g.dim ∧ 0 < (X.getD r []).getD kt.1 0) := by
  constructor
  · intro v s h
    obtain ⟨hL, hv, hem, hs, hlen⟩ := minhash_ok_inv g lg v s h
    refine ⟨by rw [hs]; exact hlen, ?_⟩
    intro kt hkt
    rw [hs] at hkt
    obtain ⟨i, _, hok⟩ := exceptMap_mem_inv _ _ hv hem kt hkt
    exact singleSample_ok_inv g lg v i kt hL hok
  · intro X res r s h hsome
    obtain ⟨hn, bs, hem, hres, hblen⟩ := minhash_many_ok_inv g lg X res h
    have hrlen : r < bs.length := by
      by_contra hnr
      rw [hres, getD_of_length_le _ r none (by simpa using le_of_not_lt hnr)] at hsome
      exact absurd hsome (by simp)
    have hmap : res.getD r none
        = Option.map (WeightedMinHash.mk g.seed) (bs.getD r none) := by
      rw [hres]
      exact getD_map_of_lt _ bs r none none hrlen
    rw [hmap] at hsome
    rcases hb : bs.getD r none with _ | hv
    · rw [hb] at hsome
      exact absurd hsome (by simp)
    · rw [hb] at hsome
      have hs : WeightedMinHash.mk g.seed hv = s := by simpa using hsome
      have hrow := (exceptMap_ok_inv (rowSketch g lg) [] none X bs hem).2 r
        (by rw [← hblen]; exact hrlen)
      rw [hb] at hrow
      have hmany := rowSketch_ok_some_inv g lg (X.getD r []) hv hrow
      have hvlen : hv.length = g.sample_size := by
        have h1 := (exceptMap_ok_inv _ 0 ((0 : ℕ), (0 : ℤ)) _ hv hmany).1
        rw [h1, List.length_range]
      refine ⟨by rw [← hs]; exact hvlen, ?_⟩
      intro kt hkt
      rw [← hs] at hkt
      obtain ⟨i, _, hok⟩ := exceptMap_mem_inv _ _ hv hmany kt hkt
      obtain ⟨hmem, hpos⟩ := manySample_ok_inv g lg (X.getD r [])
        (nzCols g.dim (X.getD r [])) i kt hok
      obtain ⟨hkd, _⟩ := nzCols_mem_inv g.dim (X.getD r []) kt.1 hmem
      exact ⟨hkd, hpos⟩

/-- C9: digest allocates a fresh copy of the hashvalues array (copy.copy),
and so does copy().digest(); a caller writing into either returned array
leaves the original sketch's own array unchanged, as any later read (digest,
equality, jaccard all read through it) observes. -/
theorem C9_digest_is_independent (st : Store) (s : SketchRef) (h : s.wf st)
    (i1 i2 : ℕ) (x1 x2 : ℕ × ℤ) :
    (((digestS st s).2.write (digestS st s).1 i1 x1).read s.hv = st.read s.hv) ∧
    (((digestS (copyS st s).2 (copyS st s).1).2.write
        (digestS (copyS st s).2 (copyS st s).1).1 i2 x2).read s.hv
      = st.read s.hv) := by
  have hlt : s.hv < st.next := h
  have h1 : s.hv ≠ st.next := by omega
  have h2 : s.hv ≠ st.next + 1 := by omega
  constructor <;>
    simp [digestS, copyS, Store.alloc, Store.write, Store.read, h1, h2]

/-- C9 witness: independence at a concrete store and sketch. -/
theorem C9_witness :
    sEx.wf stEx ∧
    ((((digestS stEx sEx).2.write (digestS stEx sEx).1 0 (1, 1)).read sEx.hv
        = stEx.read sEx.hv) ∧
      (((digestS (copyS stEx sEx).2 (copyS stEx sEx).1).2.write
          (digestS (copyS stEx sEx).2 (copyS stEx sEx).1).1 0 (1, 1)).read sEx.hv
        = stEx.read sEx.hv)) := by
  have h : sEx.wf stEx := Nat.zero_lt_one
  exact ⟨h, C9_digest_is_independent stEx sEx h 0 0 (1, 1) (1, 1)⟩

/-- C10: minhash_many does not mutate the caller's matrix: line 171 rebinds
the local X to an explicit copy (csr_matrix(..., copy=True)) and all later
mutation happens on that copy, so after the call the caller's matrix is
exactly the input, and the returned value is minhash_many of that input. -/
theorem C10_batch_no_mutation (g : Generator) (lg : ℚ → ℚ) (X : List (List ℚ)) :
    (minhash_many_call g lg X).2 = X ∧
    (minhash_many_call g lg X).1 = minhash_many g lg X :=
  ⟨rfl, rfl⟩

/-- C1 (code bug): on a sparse input that stores an explicit zero the batch
transform and the single transform disagree.  `csr_matrix(X, copy=True)`
keeps the stored zero, so `X.indptr` / `X.nnz` (lines 180-182) count it
while `X.nonzero()` (line 179) — and hence `cidx`, `ln_a` and `t` — skip
it; every row slice after the zero then drifts by one.  Here X is the
2-row, 1-column csr matrix whose row 0 stores the explicit zero (0, 0)
and whose row 1 stores (0, 5): row 0 slices `ln_a[:, 0:1]`, which actually
holds row 1's only entry, and row 1 slices `ln_a[:, 1:2]`, which is empty,
so `np.argmin` (line 208) raises — while `minhash([5])` returns a sketch.
So minhash_many(X)[r] is not element-wise equal to minhash(X[r]). -/
theorem C1_sparse_misalignment :
    minhash_manySparse gEx1 lgEx ⟨1, [[(0, 0)], [(0, 5)]]⟩
        = Except.error Err.emptyArgmin ∧
    minhash gEx1 lgEx [5] = Except.ok ⟨9, [(0, 4)]⟩ := by
  constructor <;> with_unfolding_all decide

/-- C4 (code bug): the same stored-zero misalignment defeats the None
marker for empty rows.  X is the 3-row, 2-column csr matrix with rows
[(0, 1)], [(0, 0)] (an all-zero row, stored explicitly), [(0, 3), (1, 4)].
Row 1 — whose every stored value is zero — has a nonempty indptr slice, so
it receives a NON-None sketch (built from row 2's entry 3, shifted into
its slice) and no error is raised; yet minhash on the same all-zero vector
[0, 0] raises the all-zeros ValueError.  The claimed dichotomy (None per
empty row, error only on the single path) fails. -/
theorem C4_explicit_zero_row_gets_sketch :
    ((([[(0, 1)], [(0, 0)], [(0, 3), (1, 4)]] :
          List (List (ℕ × ℚ))).getD 1 []).all fun e => decide (e.2 = 0)) = true ∧
    minhash_manySparse gEx lgEx ⟨2, [[(0, 1)], [(0, 0)], [(0, 3), (1, 4)]]⟩
        = Except.ok [some ⟨7, [(0, 0)]⟩, some ⟨7, [(0, 2)]⟩, some ⟨7, [(1, 3)]⟩] ∧
    ([some ⟨7, [(0, 0)]⟩, some ⟨7, [(0, 2)]⟩, some ⟨7, [(1, 3)]⟩] :
        List (Option WeightedMinHash)).getD 1 none ≠ none ∧
    minhash gEx lgEx [0, 0] = Except.error Err.allZero := by
  refine ⟨?_, ?_, ?_, ?_⟩ <;> with_unfolding_all decide

/-- C8 (code bug): a zero-weight dimension IS selected on the batch path.
With the same stored-zero input as C4, the misaligned slice makes row 1
(whose only stored entry is the explicit zero at column 0, weight 0)
receive the sketch [(0, 2)]: its recorded index k = 0 names a dimension
whose weight in that row is 0, not strictly positive, refuting "a
zero-weight dimension is never selected". -/
theorem C8_zero_weight_dimension_selected :
    minhash_manySparse gEx lgEx ⟨2, [[(0, 1)], [(0, 0)], [(0, 3), (1, 4)]]⟩
        = Except.ok [some ⟨7, [(0, 0)]⟩, some ⟨7, [(0, 2)]⟩, some ⟨7, [(1, 3)]⟩] ∧
    (WeightedMinHash.mk 7 [(0, 2)]).hashvalues.getD 0 (1, 1) = (0, 2) ∧
    csrRowVal (([[(0, 1)], [(0, 0)], [(0, 3), (1, 4)]] :
        List (List (ℕ × ℚ))).getD 1 []) 0 = 0 := by
  refine ⟨?_, ?_, ?_⟩ <;> with_unfolding_all decide

end Datasketch
